import Mathlib

/-!
Verification of the gvm version store and activation engine.

Strings are modelled as lists of Unicode characters (`Str`).  All byte-level
string operations used by the source (`starts_with`, `strip_prefix` of the
ASCII tag "go", substring `contains` of ASCII needles, `ends_with('*')`,
slicing off a trailing ASCII byte, byte-lexicographic `String::cmp`) coincide
with their character-level counterparts on this model, because UTF-8 byte
order agrees with code-point order and all needles involved are ASCII.
-/

/-- Character-list model of a Rust string. -/
abbrev Str := List Char

/-- Converts a Lean string literal to its character-list model. -/
def s2l (s : String) : Str := s.data

/-- The reserved runtime tag "go" as a character list. -/
def goTag : Str := ['g', 'o']

/-- Tests whether a string starts with the tag "go"
(Rust `version.starts_with("go")`). -/
def startsGo (v : Str) : Bool := goTag.isPrefixOf v

/-- Model of `utils.rs::get_real_version`: prepends "go" when absent. -/
def get_real_version (version : Str) : Str :=
  if startsGo version then version else goTag ++ version

/-- Model of Rust `version.strip_prefix("go").unwrap_or(version)`: drops the
two tag characters exactly when they are present. -/
def stripGo (v : Str) : Str := if startsGo v then v.drop 2 else v

/-- Boolean substring containment (Rust `str::contains` with an ASCII
needle): some tail of the haystack starts with the needle. -/
def containsSub (needle hay : Str) : Bool :=
  hay.tails.any fun t => needle.isPrefixOf t

/-- Model of `utils.rs::is_stable_version`: strips the "go" tag and calls the
version unstable iff it contains "rc", "beta", or "alpha" anywhere. -/
def is_stable_version (version : Str) : Bool :=
  let trimmed := stripGo version
  !(containsSub (s2l "rc") trimmed || containsSub (s2l "beta") trimmed ||
    containsSub (s2l "alpha") trimmed)

/-- ASCII decimal digit test (regex `\d`). -/
def isDigit (c : Char) : Bool := '0' ≤ c && c ≤ '9'

/-- Numeric value of a digit string (most significant first). -/
def digitsToNat (d : Str) : Nat :=
  d.foldl (fun acc c => acc * 10 + (c.toNat - '0'.toNat)) 0

/-- Model of Rust `s.parse::<u32>()` on a nonempty all-digit string: succeeds
iff the value fits in 32 bits (overflow makes `parse` fail, and
`filter_map` then drops the component). -/
def parseU32 (d : Str) : Option Nat :=
  if digitsToNat d < 4294967296 then some (digitsToNat d) else none

/-- Greedy consumption of the `(?:\.\d+)*` groups of the version regex:
repeatedly strips a dot followed by a maximal nonempty digit run, returning
the digit groups and the unconsumed rest.  Structural in a fuel argument so
that the kernel can evaluate it; the fuel is always at least the length of
the input, which each step strictly decreases. -/
def parseGroupsF : Nat → Str → List Str × Str
  | 0, l => ([], l)
  | fuel + 1, '.' :: rest =>
    let d := rest.takeWhile isDigit
    if d = [] then ([], '.' :: rest)
    else
      let (gs, suf) := parseGroupsF fuel (rest.dropWhile isDigit)
      (d :: gs, suf)
  | _ + 1, l => ([], l)

/-- Entry point for the dotted-group parser with sufficient fuel. -/
def parseGroups (l : Str) : List Str × Str := parseGroupsF (l.length + 1) l

/-- Model of `utils.rs::parse_version_parts`, the regex
`^go(\d+(?:\.\d+)*)(.*)$`: the numeric base components (as parsed `u32`
values) and the trailing suffix.  The regex matches only when the string
starts with "go" followed by at least one digit, and — because `.` does not
match a newline and `$` anchors at the end of the haystack — only when the
trailing suffix contains no newline; otherwise both results are empty. -/
def parse_version_parts (version : Str) : List Nat × Str :=
  match version with
  | 'g' :: 'o' :: rest =>
    let d := rest.takeWhile isDigit
    if d = [] then ([], [])
    else
      let (gs, suffix) := parseGroups (rest.dropWhile isDigit)
      if suffix.contains '\n' then ([], [])
      else ((d :: gs).filterMap parseU32, suffix)
  | _ => ([], [])

/-- Element comparator for numeric base components (Rust `u32::cmp`). -/
def natCmp (a b : Nat) : Ordering := compare a b

/-- Element comparator for suffix characters (Rust byte order; UTF-8 byte
order agrees with code-point order). -/
def charCmp (a b : Char) : Ordering := compare a.toNat b.toNat

/-- Lexicographic list comparison: Rust `Vec::cmp` / `str::cmp`.  A strict
prefix is smaller. -/
def lexCmp (c : α → α → Ordering) : List α → List α → Ordering
  | [], [] => .eq
  | [], _ :: _ => .lt
  | _ :: _, [] => .gt
  | a :: as, b :: bs =>
    match c a b with
    | .eq => lexCmp c as bs
    | o => o

/-- Suffix comparison from `utils.rs::cmp_versions`: among equal bases a
nonempty suffix sorts before an empty one; two nonempty suffixes compare
lexicographically. -/
def suffixCmp (sa sb : Str) : Ordering :=
  match sa.isEmpty, sb.isEmpty with
  | false, true => .lt
  | true, false => .gt
  | true, true => .eq
  | false, false => lexCmp charCmp sa sb

/-- Model of `utils.rs::cmp_versions`. -/
def cmp_versions (a b : Str) : Ordering :=
  let pa := parse_version_parts a
  let pb := parse_version_parts b
  match lexCmp natCmp pa.1 pb.1 with
  | .eq => suffixCmp pa.2 pb.2
  | o => o

/-- Non-strict order induced by the comparator, as used by Rust's
`sort_by`: `a` may precede `b` iff the comparator does not say greater. -/
def versionLE (a b : Str) : Prop := cmp_versions a b ≠ Ordering.gt

instance : DecidableRel versionLE := fun a b => by
  unfold versionLE; infer_instance

/-- Model of Rust's stable `sort_by(cmp_versions)`: the stable sort by the
induced non-strict order (insertion sort is stable, and for the total
transitive order proved below the stable sorted result is unique). -/
def sortVersions (l : List Str) : List Str := List.insertionSort versionLE l

/-- Cached release entry (`utils.rs::FilteredRelease`). -/
structure FilteredRelease where
  version : Str
  url : Str
deriving DecidableEq, Repr

/-- Order on release entries induced by their version strings. -/
def releaseLE (a b : FilteredRelease) : Prop := versionLE a.version b.version

instance : DecidableRel releaseLE := fun a b => by
  unfold releaseLE; infer_instance

/-- Normalization of an optional version filter (the
`version_filter.map(...)` closure in `utils.rs::list_cached_versions` and
`list.rs::list`): prepend "go" when absent — the same computation as
`get_real_version`. -/
def normalizeFilter (vf : Option Str) : Option Str :=
  vf.map fun f => if startsGo f then f else goTag ++ f

/-- The `retain` predicate shared by `utils.rs::list_cached_versions` and
`list.rs::list`, applied to an already-normalized filter: drop non-stable
entries when `stableOnly` is set, then match against the filter — by the
canonical-string prefix when the filter ends with `*` (minus that star),
exactly otherwise. -/
def retainVersion (vf : Option Str) (stableOnly : Bool) (v : Str) : Bool :=
  if stableOnly && !is_stable_version v then false
  else
    match vf with
    | some filter =>
      if filter.getLast? = some '*' then filter.dropLast.isPrefixOf v
      else v = filter
    | none => true

/-- Model of `utils.rs::list_cached_versions` (pure part, the cache file
contents given as a list): normalize the filter, retain matching entries,
sort ascending by the version comparator. -/
def list_cached_versions (releases : List FilteredRelease) (vf : Option Str)
    (stableOnly : Bool) : List FilteredRelease :=
  let nf := normalizeFilter vf
  let kept := releases.filter fun r => retainVersion nf stableOnly r.version
  List.insertionSort releaseLE kept

/-- Model of the pure part of `list.rs::list`: the filtered, sorted list of
installed version names that the command prints. -/
def list (installed : List Str) (vf : Option Str) (stableOnly : Bool) :
    List Str :=
  let nf := normalizeFilter vf
  sortVersions (installed.filter fun r => retainVersion nf stableOnly r)

/-- Error conditions surfaced by the `error!` macro (which prints one
diagnostic line and terminates the process). -/
inductive GvmErr
  | notInstalled
  | currentlyActive
  | reservedName
  | aliasExists
  | notFoundInCache
  | alreadyInstalled
deriving DecidableEq, Repr

/-- Result of a command run: normal completion, or termination through the
`error!` macro with the given condition. -/
inductive Outcome
  | ok
  | err (e : GvmErr)
deriving DecidableEq, Repr

/-- On-disk store under the gvm base directory.  `installed` is the set of
sub-directories of `version/`; `aliases` maps symlink names in `alias/` to
the installed version they target; `activeMarker` is the content of the
`version/active` marker file (`none` when absent); `cache` is the release
catalog; `cacheDirs`/`packageDirs` record the per-version derived
directories; `envFor` records the version whose paths the regenerated
`environment/go.env` file currently holds; `archives` the files in
`archive/`. -/
structure GvmState where
  installed : List Str
  aliases : List (Str × Str)
  activeMarker : Option Str
  cache : List FilteredRelease
  cacheDirs : List Str
  packageDirs : List Str
  envFor : Option Str
  archives : List Str
deriving DecidableEq, Repr

/-- The reserved alias name. -/
def defaultName : Str := s2l "default"

/-- Removes the binding for a name from the alias map (a directory holds at
most one entry per name, so this is symlink removal). -/
def eraseKey (l : List (Str × Str)) (k : Str) : List (Str × Str) :=
  l.filter fun p => p.1 ≠ k

/-- Looks up an alias binding by name. -/
def lookupKey (l : List (Str × Str)) (k : Str) : Option Str :=
  List.lookup k l

/-- Idempotent directory creation (`create_dir_all`, where "already exists"
is not an error). -/
def insertNew (l : List Str) (x : Str) : List Str :=
  if l.contains x then l else l ++ [x]

/-- Model of `utils.rs::get_active_version`: reads `version/active`; yields
the content iff it starts with "go", and `none` when the file is absent or
its content does not start with "go". -/
def get_active_version (s : GvmState) : Option Str :=
  s.activeMarker.bind fun active_version =>
    if startsGo active_version then some active_version else none

/-- Model of `utils.rs::is_version_active`. -/
def is_version_active (s : GvmState) (version : Str) : Bool :=
  ((get_active_version s).map fun av => av == version).getD false

/-- Model of `utils.rs::activate_version` with the filesystem primitives
succeeding: verify the version directory exists, write the marker, replace
the `default` alias symlink, create the per-version cache and package
directories, regenerate the environment file. -/
def activate_version (s : GvmState) (version : Str) : GvmState × Outcome :=
  let real_version := get_real_version version
  if !s.installed.contains real_version then (s, .err .notInstalled)
  else
    let s1 := { s with activeMarker := some real_version }
    let s2 := { s1 with
      aliases := (defaultName, real_version) :: eraseKey s1.aliases defaultName }
    let s3 := { s2 with cacheDirs := insertNew s2.cacheDirs real_version }
    let s4 := { s3 with packageDirs := insertNew s3.packageDirs real_version }
    ({ s4 with envFor := some real_version }, .ok)

/-- Model of `use_version.rs::use_version`: reject when not installed,
succeed without touching anything when already active, otherwise activate. -/
def use_version (s : GvmState) (version : Str) : GvmState × Outcome :=
  let real_verison := get_real_version version
  if !s.installed.contains real_verison then (s, .err .notInstalled)
  else if is_version_active s real_verison then (s, .ok)
  else activate_version s real_verison

/-- Model of `remove.rs::remove`: reject when not installed or currently
active; otherwise remove the `default` alias symlink (when present) and then
the version directory. -/
def remove (s : GvmState) (version : Str) : GvmState × Outcome :=
  let real_version := get_real_version version
  if !s.installed.contains real_version then (s, .err .notInstalled)
  else if is_version_active s real_version then (s, .err .currentlyActive)
  else
    let s1 := { s with aliases := eraseKey s.aliases defaultName }
    ({ s1 with installed := s1.installed.erase real_version }, .ok)

/-- Model of `install.rs::version_already_installed`: the version directory
exists. -/
def version_already_installed (s : GvmState) (version : Str) : Bool :=
  s.installed.contains version

/-- Last path segment of a URL (`url.split("/").last()`), the archive file
name. -/
def lastSegment (u : Str) : Str :=
  u.foldl (fun acc c => if c = '/' then [] else acc ++ [c]) []

/-- Model of `install.rs::install` with the collaborators (download,
decompression) succeeding: look the version up in the release cache
(rejecting unless exactly one entry matches), reject when already installed,
then download the archive, unpack and rename it into the version directory,
delete the archive, and optionally activate. -/
def install (s : GvmState) (version : Str) (useFlag : Bool) :
    GvmState × Outcome :=
  let version_filter := get_real_version version
  match s.cache.filter fun r => r.version = version_filter with
  | [release] =>
    if version_already_installed s release.version then
      (s, .err .alreadyInstalled)
    else
      let package_name := lastSegment release.url
      let s1 := { s with archives := s.archives ++ [package_name] }
      let s2 := { s1 with installed := s1.installed ++ [release.version] }
      let s3 := { s2 with archives := s2.archives.erase package_name }
      if useFlag then activate_version s3 release.version else (s3, .ok)
  | _ => (s, .err .notFoundInCache)

/-- Model of `alias.rs::alias`: the name `default` is rejected; the names
`list` and `ls` are intercepted as the listing sub-command, which only reads
the alias directory and writes nothing; otherwise reject duplicates and
missing targets, then create the symlink. -/
def aliasCmd (s : GvmState) (name : Str) (target : Option Str) :
    GvmState × Outcome :=
  if name = defaultName then (s, .err .reservedName)
  else if name = s2l "list" ∨ name = s2l "ls" then (s, .ok)
  else if (s.aliases.map Prod.fst).contains name then (s, .err .aliasExists)
  else
    let release_version := get_real_version (target.getD [])
    if !s.installed.contains release_version then (s, .err .notInstalled)
    else ({ s with aliases := (name, release_version) :: eraseKey s.aliases name }, .ok)

/-- Model of `remove_alias.rs::remove_alias`: the name `default` is
rejected; a missing alias is a no-op success; otherwise the symlink is
removed. -/
def remove_alias (s : GvmState) (aliasName : Str) : GvmState × Outcome :=
  if aliasName = defaultName then (s, .err .reservedName)
  else if !(s.aliases.map Prod.fst).contains aliasName then (s, .ok)
  else ({ s with aliases := eraseKey s.aliases aliasName }, .ok)

/-- Filesystem primitives, for reasoning about which operations a command
issues and in what order. -/
inductive FsOp
  | writeFile (path : Str) (content : Str)
  | renameOp (src dst : Str)
  | removeOp (path : Str)
  | symlinkOp (target link : Str)
  | mkdirAll (path : Str)
deriving DecidableEq, Repr

/-- Recognizes a rename. -/
def isRename : FsOp → Bool
  | .renameOp _ _ => true
  | _ => false

/-- Path concatenation with the Unix separator (`PathBuf::join`). -/
def pathJoin (base seg : Str) : Str := base ++ '/' :: seg

/-- Double-quote character, by code point. -/
def quoteChar : Char := Char.ofNat 34

/-- Single-quote character, by code point. -/
def squoteChar : Char := Char.ofNat 39

/-- Backslash character, by code point. -/
def backslashChar : Char := Char.ofNat 92

/-- Rust `value.replace('"', "\\\"")`. -/
def escapeQuotes (v : Str) : Str :=
  v.flatMap fun c => if c = quoteChar then [backslashChar, quoteChar] else [c]

/-- One `KEY=value` line of the environment file, quoted exactly when the
value holds a space or a quote character
(`init_go_environment` in `utils.rs`). -/
def envLine (k v : Str) : Str :=
  if v.any fun c => c = ' ' || c = quoteChar || c = squoteChar then
    k ++ '=' :: quoteChar :: (escapeQuotes v ++ [quoteChar, '\n'])
  else
    k ++ '=' :: (v ++ ['\n'])

/-- Content written to `environment/go.env` for an active version
(`init_go_environment` in `utils.rs`). -/
def envFileContent (base real_version : Str) : Str :=
  let environmentDir := pathJoin base (s2l "environment")
  let envFile := pathJoin environmentDir (s2l "go.env")
  let goroot := pathJoin (pathJoin base (s2l "version")) real_version
  let gocache :=
    pathJoin (pathJoin (pathJoin base (s2l "cache")) real_version) (s2l "go-build")
  let gopath := pathJoin (pathJoin base (s2l "package")) real_version
  envLine (s2l "GOROOT") goroot ++ envLine (s2l "GOCACHE") gocache ++
    envLine (s2l "GOPATH") gopath ++ envLine (s2l "GOENV") envFile

/-- Sequence of filesystem primitives issued by
`utils.rs::activate_version` (success path) under the given base directory:
an in-place write of the `version/active` marker, replacement of the
`default` symlink, idempotent directory creations, and an in-place write of
the environment file.  When the version directory is missing the process
exits before issuing any operation. -/
def activateTrace (base : Str) (s : GvmState) (version : Str) : List FsOp :=
  let real_version := get_real_version version
  let versionDir := pathJoin base (s2l "version")
  if !s.installed.contains real_version then []
  else
    let activePath := pathJoin versionDir (s2l "active")
    let releaseDir := pathJoin versionDir real_version
    let defaultLink := pathJoin (pathJoin base (s2l "alias")) defaultName
    let removeDefault :=
      if (s.aliases.map Prod.fst).contains defaultName then
        [FsOp.removeOp defaultLink]
      else []
    FsOp.writeFile activePath real_version ::
      (removeDefault ++
        [FsOp.symlinkOp releaseDir defaultLink,
         FsOp.mkdirAll
           (pathJoin (pathJoin (pathJoin base (s2l "cache")) real_version)
             (s2l "go-build")),
         FsOp.mkdirAll
           (pathJoin (pathJoin (pathJoin base (s2l "package")) real_version)
             (s2l "bin")),
         FsOp.mkdirAll (pathJoin base (s2l "environment")),
         FsOp.writeFile (pathJoin (pathJoin base (s2l "environment")) (s2l "go.env"))
           (envFileContent base real_version)])

/-- Sample store used below in concrete scenarios: `go1.23.0` is active with
the `default` alias in place, `go1.24.0` is also installed, and the release
catalog is cached for both. -/
def sampleStore : GvmState where
  installed := [s2l "go1.23.0", s2l "go1.24.0"]
  aliases := [(defaultName, s2l "go1.23.0")]
  activeMarker := some (s2l "go1.23.0")
  cache :=
    [{ version := s2l "go1.24.0",
       url := s2l "https://go.dev/dl/go1.24.0.linux-amd64.tar.gz" },
     { version := s2l "go1.23.0",
       url := s2l "https://go.dev/dl/go1.23.0.linux-amd64.tar.gz" }]
  cacheDirs := [s2l "go1.23.0"]
  packageDirs := [s2l "go1.23.0"]
  envFor := some (s2l "go1.23.0")
  archives := []

/-- Sample store whose `default` alias is gone while the marker still names
an active version — reachable from `sampleStore` by removing the non-active
`go1.24.0`, since `remove` deletes the `default` alias symlink. -/
def corruptStore : GvmState := { sampleStore with aliases := [] }

/-- Sample store with versions installed but an empty release catalog. -/
def emptyCacheStore : GvmState := { sampleStore with cache := [] }

/-- Sample store whose marker content starts with "go" without being a
parseable version string. -/
def oddMarkerStore : GvmState := { sampleStore with activeMarker := some (s2l "gonope") }

/-- Comparator on parsed (base, suffix) pairs; `cmp_versions` is exactly
this comparator applied to the two parse results. -/
def keyCmp (p q : List Nat × Str) : Ordering :=
  match lexCmp natCmp p.1 q.1 with
  | .eq => suffixCmp p.2 q.2
  | o => o

/-! Order-theoretic facts about the comparator, establishing that
`versionLE` is a total preorder so that sorting by it is meaningful. -/

theorem natCmp_eq_iff {a b : Nat} : natCmp a b = .eq ↔ a = b := by
  simpa [natCmp] using Nat.compare_eq_eq

theorem natCmp_swap (a b : Nat) : natCmp b a = (natCmp a b).swap := by
  rcases Nat.lt_trichotomy a b with h | h | h
  · simp [natCmp, Nat.compare_eq_lt.mpr h, Nat.compare_eq_gt.mpr h, Ordering.swap]
  · subst h; simp [natCmp, Nat.compare_eq_eq.mpr rfl, Ordering.swap]
  · simp [natCmp, Nat.compare_eq_gt.mpr h, Nat.compare_eq_lt.mpr h, Ordering.swap]

theorem natCmp_lt_trans {a b c : Nat} (h1 : natCmp a b = .lt)
    (h2 : natCmp b c = .lt) : natCmp a c = .lt := by
  simp only [natCmp, Nat.compare_eq_lt] at *
  omega

theorem charCmp_eq_iff {a b : Char} : charCmp a b = .eq ↔ a = b := by
  constructor
  · intro h
    exact Char.eq_of_val_eq (UInt32.toNat.inj (Nat.compare_eq_eq.mp h))
  · rintro rfl
    simp [charCmp, Nat.compare_eq_eq.mpr rfl]

theorem charCmp_swap (a b : Char) : charCmp b a = (charCmp a b).swap := by
  simpa [charCmp] using natCmp_swap a.toNat b.toNat

theorem charCmp_lt_trans {a b c : Char} (h1 : charCmp a b = .lt)
    (h2 : charCmp b c = .lt) : charCmp a c = .lt :=
  natCmp_lt_trans h1 h2


theorem lexCmp_cons_cons (c : α → α → Ordering) (a b : α) (as bs : List α) :
    lexCmp c (a :: as) (b :: bs) = (c a b).then (lexCmp c as bs) := by
  rw [lexCmp]
  rcases c a b <;> rfl

theorem lexCmp_eq_iff {c : α → α → Ordering}
    (heq : ∀ a b, c a b = .eq ↔ a = b) :
    ∀ {l1 l2 : List α}, lexCmp c l1 l2 = .eq ↔ l1 = l2
  | [], [] => by simp [lexCmp]
  | [], _ :: _ => by simp [lexCmp]
  | _ :: _, [] => by simp [lexCmp]
  | a :: as, b :: bs => by
    rw [lexCmp_cons_cons]
    rcases hab : c a b with _ | _ | _
    · simp only [Ordering.then]
      constructor
      · intro h; exact absurd h (by simp)
      · rintro h
        injection h with h1 h2
        subst h1
        rw [(heq a a).mpr rfl] at hab
        exact absurd hab (by simp)
    · obtain rfl := (heq a b).mp hab
      simp only [Ordering.then, List.cons.injEq, true_and]
      exact lexCmp_eq_iff heq
    · simp only [Ordering.then]
      constructor
      · intro h; exact absurd h (by simp)
      · rintro h
        injection h with h1 h2
        subst h1
        rw [(heq a a).mpr rfl] at hab
        exact absurd hab (by simp)

theorem lexCmp_swap {c : α → α → Ordering}
    (hswap : ∀ a b, c b a = (c a b).swap) :
    ∀ (l1 l2 : List α), lexCmp c l2 l1 = (lexCmp c l1 l2).swap
  | [], [] => rfl
  | [], _ :: _ => rfl
  | _ :: _, [] => rfl
  | a :: as, b :: bs => by
    rw [lexCmp_cons_cons, lexCmp_cons_cons, hswap a b]
    rcases c a b <;>
      simp [Ordering.then, Ordering.swap, lexCmp_swap hswap as bs]

theorem lexCmp_lt_trans {c : α → α → Ordering}
    (heq : ∀ a b, c a b = .eq ↔ a = b)
    (hlt : ∀ {a b d : α}, c a b = .lt → c b d = .lt → c a d = .lt) :
    ∀ {l1 l2 l3 : List α}, lexCmp c l1 l2 = .lt → lexCmp c l2 l3 = .lt →
      lexCmp c l1 l3 = .lt
  | [], [], _, h1, _ => by simp [lexCmp] at h1
  | [], _ :: _, [], _, h2 => by simp [lexCmp] at h2
  | [], _ :: _, _ :: _, _, _ => rfl
  | _ :: _, [], _, h1, _ => by simp [lexCmp] at h1
  | _ :: _, _ :: _, [], _, h2 => by simp [lexCmp] at h2
  | a :: as, b :: bs, d :: ds, h1, h2 => by
    rw [lexCmp_cons_cons] at h1 h2 ⊢
    rcases hab : c a b with _ | _ | _ <;> rw [hab] at h1 <;>
      rcases hbd : c b d with _ | _ | _ <;> rw [hbd] at h2 <;>
      simp only [Ordering.then] at h1 h2
    · rw [hlt hab hbd]
      rfl
    · obtain rfl := (heq b d).mp hbd
      rw [hab]
      rfl
    · exact absurd h2 (by simp)
    · obtain rfl := (heq a b).mp hab
      rw [hbd]
      rfl
    · obtain rfl := (heq a b).mp hab
      rw [hbd]
      simp only [Ordering.then]
      exact lexCmp_lt_trans heq hlt h1 h2
    · exact absurd h2 (by simp)
    · exact absurd h1 (by simp)
    · exact absurd h1 (by simp)
    · exact absurd h1 (by simp)

theorem suffixCmp_eq_iff {s1 s2 : Str} : suffixCmp s1 s2 = .eq ↔ s1 = s2 := by
  rcases s1 with _ | ⟨a, as⟩ <;> rcases s2 with _ | ⟨b, bs⟩
  · simp [suffixCmp]
  · simp [suffixCmp]
  · simp [suffixCmp]
  · show lexCmp charCmp _ _ = .eq ↔ _
    exact lexCmp_eq_iff fun a b => charCmp_eq_iff

theorem suffixCmp_swap (s1 s2 : Str) :
    suffixCmp s2 s1 = (suffixCmp s1 s2).swap := by
  rcases s1 with _ | ⟨a, as⟩ <;> rcases s2 with _ | ⟨b, bs⟩
  · rfl
  · rfl
  · rfl
  · show lexCmp charCmp _ _ = (lexCmp charCmp _ _).swap
    exact lexCmp_swap charCmp_swap _ _

theorem suffixCmp_lt_trans {s1 s2 s3 : Str} (h1 : suffixCmp s1 s2 = .lt)
    (h2 : suffixCmp s2 s3 = .lt) : suffixCmp s1 s3 = .lt := by
  rcases s1 with _ | ⟨a, as⟩ <;> rcases s2 with _ | ⟨b, bs⟩ <;>
    rcases s3 with _ | ⟨d, ds⟩
  · exact absurd h1 (by simp [suffixCmp])
  · exact absurd h1 (by simp [suffixCmp])
  · exact absurd h1 (by simp [suffixCmp])
  · exact absurd h1 (by simp [suffixCmp])
  · exact absurd h2 (by simp [suffixCmp])
  · exact absurd h2 (by simp [suffixCmp])
  · rfl
  · show lexCmp charCmp _ _ = .lt
    have h1' : lexCmp charCmp (a :: as) (b :: bs) = .lt := h1
    have h2' : lexCmp charCmp (b :: bs) (d :: ds) = .lt := h2
    exact lexCmp_lt_trans (fun a b => charCmp_eq_iff)
      (fun hab hbd => charCmp_lt_trans hab hbd) h1' h2'

theorem cmp_versions_eq_keyCmp (a b : Str) :
    cmp_versions a b =
      keyCmp (parse_version_parts a) (parse_version_parts b) := rfl

theorem keyCmp_swap (p q : List Nat × Str) :
    keyCmp q p = (keyCmp p q).swap := by
  unfold keyCmp
  rw [lexCmp_swap natCmp_swap, suffixCmp_swap]
  rcases lexCmp natCmp p.1 q.1 <;> rfl

theorem keyCmp_eq_iff {p q : List Nat × Str} : keyCmp p q = .eq ↔ p = q := by
  unfold keyCmp
  rcases h : lexCmp natCmp p.1 q.1 with _ | _ | _
  · constructor
    · intro h'; exact absurd h' (by simp)
    · rintro rfl
      rw [(lexCmp_eq_iff fun a b => natCmp_eq_iff).mpr rfl] at h
      exact absurd h (by simp)
  · have h1 : p.1 = q.1 := (lexCmp_eq_iff fun a b => natCmp_eq_iff).mp h
    rw [show (suffixCmp p.2 q.2 = .eq ↔ p.2 = q.2) from suffixCmp_eq_iff]
    rw [Prod.ext_iff]
    simp [h1]
  · constructor
    · intro h'; exact absurd h' (by simp)
    · rintro rfl
      rw [(lexCmp_eq_iff fun a b => natCmp_eq_iff).mpr rfl] at h
      exact absurd h (by simp)

theorem keyCmp_lt_trans {p q r : List Nat × Str} (h1 : keyCmp p q = .lt)
    (h2 : keyCmp q r = .lt) : keyCmp p r = .lt := by
  unfold keyCmp at h1 h2 ⊢
  rcases hpq : lexCmp natCmp p.1 q.1 with _ | _ | _ <;> rw [hpq] at h1 <;>
    rcases hqr : lexCmp natCmp q.1 r.1 with _ | _ | _ <;> rw [hqr] at h2
  · rw [lexCmp_lt_trans (fun a b => natCmp_eq_iff)
      (fun hab hbd => natCmp_lt_trans hab hbd) hpq hqr]
  · obtain h' := (lexCmp_eq_iff fun a b => natCmp_eq_iff).mp hqr
    rw [← h', hpq]
  · exact absurd h2 (by simp)
  · obtain h' := (lexCmp_eq_iff fun a b => natCmp_eq_iff).mp hpq
    rw [h', hqr]
  · obtain h' := (lexCmp_eq_iff fun a b => natCmp_eq_iff).mp hpq
    rw [h', hqr]
    exact suffixCmp_lt_trans h1 h2
  · exact absurd h2 (by simp)
  · exact absurd h1 (by simp)
  · exact absurd h1 (by simp)
  · exact absurd h1 (by simp)

theorem keyCmp_le_trans {p q r : List Nat × Str} (h1 : keyCmp p q ≠ .gt)
    (h2 : keyCmp q r ≠ .gt) : keyCmp p r ≠ .gt := by
  rcases hpq : keyCmp p q with _ | _ | _
  · rcases hqr : keyCmp q r with _ | _ | _
    · rw [keyCmp_lt_trans hpq hqr]; simp
    · obtain rfl := keyCmp_eq_iff.mp hqr
      rw [hpq]; simp
    · exact absurd hqr h2
  · obtain rfl := keyCmp_eq_iff.mp hpq
    exact h2
  · exact absurd hpq h1

instance : IsTrans Str versionLE :=
  ⟨fun _ _ _ h1 h2 => keyCmp_le_trans h1 h2⟩

instance : IsTotal Str versionLE :=
  ⟨fun a b => by
    unfold versionLE
    rcases h : cmp_versions a b with _ | _ | _
    · left; simp [h]
    · left; simp [h]
    · right
      have hs := cmp_versions_eq_keyCmp b a
      rw [keyCmp_swap, ← cmp_versions_eq_keyCmp, h] at hs
      simp [hs, Ordering.swap]⟩

instance : IsTrans FilteredRelease releaseLE :=
  ⟨fun _ _ _ h1 h2 => keyCmp_le_trans h1 h2⟩

instance : IsTotal FilteredRelease releaseLE :=
  ⟨fun a b => IsTotal.total (r := versionLE) a.version b.version⟩

theorem startsGo_getReal (v : Str) : startsGo (get_real_version v) = true := by
  rw [get_real_version]
  by_cases h : startsGo v
  · rw [if_pos h]; exact h
  · rw [if_neg h]
    exact List.isPrefixOf_iff_prefix.mpr ⟨v, rfl⟩

theorem getReal_idem (v : Str) :
    get_real_version (get_real_version v) = get_real_version v := by
  rw [get_real_version, if_pos (startsGo_getReal v)]

theorem containsSub_iff {n h : Str} : containsSub n h = true ↔ n <:+: h := by
  unfold containsSub
  rw [List.any_eq_true]
  constructor
  · rintro ⟨t, ht, hp⟩
    exact List.infix_iff_prefix_suffix.mpr
      ⟨t, List.isPrefixOf_iff_prefix.mp hp, (List.mem_tails _ _).mp ht⟩
  · intro hinf
    obtain ⟨t, hpre, hsuf⟩ := List.infix_iff_prefix_suffix.mp hinf
    exact ⟨t, (List.mem_tails _ _).mpr hsuf, List.isPrefixOf_iff_prefix.mpr hpre⟩

theorem lookupKey_eraseKey_self (l : List (Str × Str)) (k : Str) :
    lookupKey (eraseKey l k) k = none := by
  induction l with
  | nil => rfl
  | cons p l ih =>
    rw [eraseKey, List.filter_cons]
    by_cases h : p.1 = k
    · rw [if_neg (by simp [h])]
      exact ih
    · rw [if_pos (by simp [h])]
      have hk : (k == p.1) = false := by
        rw [beq_eq_false_iff_ne]
        intro hh; exact h hh.symm
      simp only [lookupKey, List.lookup, hk]
      exact ih

theorem lookupKey_eraseKey_ne (l : List (Str × Str)) (k n : Str) (hne : n ≠ k) :
    lookupKey (eraseKey l k) n = lookupKey l n := by
  induction l with
  | nil => rfl
  | cons p l ih =>
    rw [eraseKey, List.filter_cons]
    by_cases h : p.1 = k
    · rw [if_neg (by simp [h])]
      have hn : (n == p.1) = false := by
        rw [beq_eq_false_iff_ne]
        intro hh; exact hne (hh.trans h)
      simp only [lookupKey, List.lookup, hn]
      exact ih
    · rw [if_pos (by simp [h])]
      cases hn : (n == p.1)
      · simp only [lookupKey, List.lookup, hn]
        exact ih
      · simp only [lookupKey, List.lookup, hn]

theorem count_one_of_nodup_mem {a : Str} {l : List Str} (hnd : l.Nodup)
    (h : a ∈ l) : l.count a = 1 := by
  induction l with
  | nil => cases h
  | cons b t ih =>
    rw [List.count_cons]
    rcases List.mem_cons.mp h with rfl | hmem
    · rw [List.count_eq_zero.mpr (List.nodup_cons.mp hnd).1]
      simp
    · rw [ih (List.nodup_cons.mp hnd).2 hmem]
      have hne : ¬(a = b) := fun hh =>
        (List.nodup_cons.mp hnd).1 (hh ▸ hmem)
      have hne2 : ¬(b = a) := fun hh => hne hh.symm
      simp [hne, hne2]

theorem activate_version_spec (s : GvmState) (v : Str)
    (hin : get_real_version v ∈ s.installed) :
    activate_version s v =
      ({ s with
          activeMarker := some (get_real_version v),
          aliases := (defaultName, get_real_version v) ::
            eraseKey s.aliases defaultName,
          cacheDirs := insertNew s.cacheDirs (get_real_version v),
          packageDirs := insertNew s.packageDirs (get_real_version v),
          envFor := some (get_real_version v) }, .ok) := by
  simp only [activate_version]
  rw [if_neg (by simp [hin])]

/-- C1 (counterexample): the claim fails as stated.  In `corruptStore` —
reachable from `sampleStore` by `remove`-ing the non-active `go1.24.0`,
which deletes the `default` alias symlink — the marker names `go1.23.0` but
no `default` alias exists; activating `go1.23.0` through the `use` path is
a no-op success that leaves the `default` alias absent, so the marker and
the alias do not agree after a successful activation. -/
theorem C1_counterexample :
    use_version corruptStore (s2l "go1.23.0") = (corruptStore, .ok) ∧
    lookupKey corruptStore.aliases defaultName ≠
      some (get_real_version (s2l "go1.23.0")) := by decide

/-- C1 (amended): for an installed version v, an activation through the
`use` path that takes the full activation branch (v not already active)
establishes agreement — the marker holds canonical v and the `default`
alias points at v's directory; activating the already-active version is a
no-op success that leaves the whole store unchanged (and therefore does not
repair a missing or mismatched `default` alias). -/
theorem C1_activation_agreement (s : GvmState) (v : Str)
    (hin : get_real_version v ∈ s.installed) :
    (is_version_active s (get_real_version v) = false →
      (use_version s v).2 = .ok ∧
      (use_version s v).1.activeMarker = some (get_real_version v) ∧
      lookupKey (use_version s v).1.aliases defaultName =
        some (get_real_version v)) ∧
    (is_version_active s (get_real_version v) = true →
      use_version s v = (s, .ok)) := by
  constructor
  · intro hact
    have h1 : use_version s v = activate_version s (get_real_version v) := by
      simp only [use_version]
      rw [if_neg (by simp [hin]), if_neg (by simp [hact])]
    rw [h1, activate_version_spec s (get_real_version v) (by rwa [getReal_idem])]
    rw [getReal_idem]
    refine ⟨rfl, rfl, ?_⟩
    simp [lookupKey, List.lookup]
  · intro hact
    simp only [use_version]
    rw [if_neg (by simp [hin]), if_pos hact]

/-- C1 (witness): the amended theorem applied to `sampleStore` and version
`1.24.0`, which is installed and not active. -/
theorem C1_witness :
    (use_version sampleStore (s2l "1.24.0")).2 = .ok ∧
    (use_version sampleStore (s2l "1.24.0")).1.activeMarker =
      some (s2l "go1.24.0") ∧
    lookupKey (use_version sampleStore (s2l "1.24.0")).1.aliases defaultName =
      some (s2l "go1.24.0") := by
  have h := (C1_activation_agreement sampleStore (s2l "1.24.0")
    (by decide)).1 (by decide)
  have heq : get_real_version (s2l "1.24.0") = s2l "go1.24.0" := by decide
  rw [heq] at h
  exact h

/-- C2: for any two version strings with component-wise equal parsed
numeric bases, one with a nonempty suffix compares less than one with an
empty suffix; and sorting the given three-element list with the comparator
yields the stated order. -/
theorem C2_pre_release_sorts_before_release :
    (∀ a b : Str,
      (parse_version_parts a).1 = (parse_version_parts b).1 →
      (parse_version_parts a).2 ≠ [] →
      (parse_version_parts b).2 = [] →
      cmp_versions a b = .lt) ∧
    sortVersions [s2l "go1.24rc1", s2l "go1.24.0", s2l "go1.23.0"] =
      [s2l "go1.23.0", s2l "go1.24rc1", s2l "go1.24.0"] := by
  constructor
  · intro a b hbase hsa hsb
    rw [cmp_versions_eq_keyCmp, keyCmp, hbase,
      (lexCmp_eq_iff fun a b => natCmp_eq_iff).mpr rfl, hsb]
    rcases hs : (parse_version_parts a).2 with _ | ⟨c, cs⟩
    · exact absurd hs hsa
    · rfl
  · decide

/-- C2 (witness): the equal-base part of the theorem applied to
`go1.24rc1` and `go1.24`, whose parsed bases are both `[1, 24]`. -/
theorem C2_witness :
    cmp_versions (s2l "go1.24rc1") (s2l "go1.24") = .lt :=
  C2_pre_release_sorts_before_release.1 _ _ (by decide) (by decide) (by decide)

/-- C3 (counterexample): the claim fails as stated.  For `go1.24foo` the
suffix is nonempty and no pre-release marker occurs, so the claimed
equivalence demands `is_stable = false`, but the code returns `true` — it
never consults the suffix, only marker containment. -/
theorem C3_counterexample :
    ¬(is_stable_version (s2l "go1.24foo") = true ↔
      ((parse_version_parts (s2l "go1.24foo")).2 = [] ∧
        containsSub (s2l "rc") (s2l "go1.24foo") = false ∧
        containsSub (s2l "beta") (s2l "go1.24foo") = false ∧
        containsSub (s2l "alpha") (s2l "go1.24foo") = false)) := by
  decide

/-- C3 (amended): `is_stable_version` returns true iff the string, with the
`go` tag stripped when present, contains none of `rc`, `beta`, `alpha` as a
substring — irrespective of whether the parsed suffix is empty; the three
concrete examples of the claim hold. -/
theorem C3_stability_ignores_suffix (v : Str) :
    (is_stable_version v = true ↔
      ¬(s2l "rc" <:+: stripGo v) ∧ ¬(s2l "beta" <:+: stripGo v) ∧
        ¬(s2l "alpha" <:+: stripGo v)) ∧
    is_stable_version (s2l "go1.24.0") = true ∧
    is_stable_version (s2l "go1.24rc1") = false ∧
    is_stable_version (s2l "go1.24beta2") = false := by
  refine ⟨?_, by decide, by decide, by decide⟩
  rw [is_stable_version]
  simp only [Bool.not_eq_true', Bool.or_eq_false_iff, ← containsSub_iff]
  simp [Bool.not_eq_true, and_assoc]

/-- C4: the list filtering operation normalizes the filter to the prefixed
canonical form, keeps exactly the entries passing the retain predicate
(wildcard prefix match or exact match, and the stability screen), and
returns them sorted ascending by the version comparator; the concrete
`1.21.*` instance yields exactly the stated result. -/
theorem C4_list_filter_sort (entries : List FilteredRelease) (vf : Option Str)
    (stableOnly : Bool) :
    ((list_cached_versions entries vf stableOnly).Perm
        (entries.filter fun r =>
          retainVersion (normalizeFilter vf) stableOnly r.version) ∧
      (list_cached_versions entries vf stableOnly).Sorted releaseLE) ∧
    list [s2l "go1.21.0", s2l "go1.21.5", s2l "go1.22.0"]
        (some (s2l "1.21.*")) false =
      [s2l "go1.21.0", s2l "go1.21.5"] := by
  refine ⟨⟨List.perm_insertionSort _ _, List.sorted_insertionSort _ _⟩,
    by decide⟩

/-- C5 (counterexample): the claim fails as stated.  Removing the installed
non-active `go1.24.0` from `sampleStore` succeeds but deletes the `default`
alias, which pointed at the still-active `go1.23.0` — so not every alias is
left unchanged. -/
theorem C5_counterexample :
    (remove sampleStore (s2l "go1.24.0")).2 = .ok ∧
    lookupKey sampleStore.aliases defaultName = some (s2l "go1.23.0") ∧
    lookupKey (remove sampleStore (s2l "go1.24.0")).1.aliases defaultName =
      none := by decide

/-- C5 (amended): removing an installed non-active version succeeds,
deletes exactly that version's directory, removes the `default` alias
symlink when present, and leaves every other alias, the marker, and the
cache unchanged; removing the active version is rejected with the
currently-active condition before any deletion, leaving the store
unchanged. -/
theorem C5_remove_effects (s : GvmState) (v : Str) (hnd : s.installed.Nodup)
    (hin : get_real_version v ∈ s.installed) :
    (is_version_active s (get_real_version v) = false →
      (remove s v).2 = .ok ∧
      (∀ w, w ∈ (remove s v).1.installed ↔
        w ∈ s.installed ∧ w ≠ get_real_version v) ∧
      (∀ n, n ≠ defaultName →
        lookupKey (remove s v).1.aliases n = lookupKey s.aliases n) ∧
      lookupKey (remove s v).1.aliases defaultName = none ∧
      (remove s v).1.activeMarker = s.activeMarker ∧
      (remove s v).1.cache = s.cache) ∧
    (is_version_active s (get_real_version v) = true →
      remove s v = (s, .err .currentlyActive)) := by
  constructor
  · intro hact
    have h1 : remove s v =
        ({ s with aliases := eraseKey s.aliases defaultName,
                  installed := s.installed.erase (get_real_version v) }, .ok) := by
      simp only [remove]
      rw [if_neg (by simp [hin]), if_neg (by simp [hact])]
    rw [h1]
    refine ⟨rfl, ?_, ?_, ?_, rfl, rfl⟩
    · intro w
      rw [hnd.mem_erase_iff]
      exact and_comm
    · intro n hne
      exact lookupKey_eraseKey_ne _ _ _ hne
    · exact lookupKey_eraseKey_self _ _
  · intro hact
    simp only [remove]
    rw [if_neg (by simp [hin]), if_pos hact]

/-- C5 (witness): the amended theorem applied to `sampleStore` and the
installed, non-active `go1.24.0`. -/
theorem C5_witness :
    (remove sampleStore (s2l "go1.24.0")).2 = .ok ∧
    lookupKey (remove sampleStore (s2l "go1.24.0")).1.aliases defaultName =
      none ∧
    (remove sampleStore (s2l "go1.24.0")).1.activeMarker =
      sampleStore.activeMarker := by
  have h := (C5_remove_effects sampleStore (s2l "go1.24.0")
    (by decide) (by decide)).1 (by decide)
  exact ⟨h.1, h.2.2.2.1, h.2.2.2.2.1⟩

/-- C6 (counterexample): the claim fails as stated.  With `go1.24.0`
installed but absent from the release cache, a second install fails with
the catalog-lookup error, not with AlreadyInstalled — the cache lookup
precedes the already-installed check. -/
theorem C6_counterexample :
    version_already_installed emptyCacheStore (s2l "go1.24.0") = true ∧
    install emptyCacheStore (s2l "go1.24.0") false =
      (emptyCacheStore, .err .notFoundInCache) ∧
    (install emptyCacheStore (s2l "go1.24.0") false).2 ≠
      .err .alreadyInstalled := by decide

/-- C6 (amended): when the release cache holds exactly one entry for the
version and the version is already installed, install fails with
AlreadyInstalled before any mutating step, the store is returned unchanged,
and it still reports exactly one directory for that version. -/
theorem C6_reinstall_rejected (s : GvmState) (v : Str) (u : Bool)
    (hnd : s.installed.Nodup)
    (hcache :
      (s.cache.filter fun r => r.version = get_real_version v).length = 1)
    (hin : get_real_version v ∈ s.installed) :
    install s v u = (s, .err .alreadyInstalled) ∧
    (install s v u).1.installed.count (get_real_version v) = 1 := by
  rcases hf : s.cache.filter (fun r => r.version = get_real_version v) with
    _ | ⟨release, rest⟩
  · rw [hf] at hcache
    simp at hcache
  rcases rest with _ | ⟨r2, rest⟩
  case cons.cons =>
    rw [hf] at hcache
    simp at hcache
  have hrel : release.version = get_real_version v := by
    have hm : release ∈
        s.cache.filter (fun r => r.version = get_real_version v) := by
      rw [hf]
      exact List.mem_cons_self _ _
    simpa using (List.mem_filter.mp hm).2
  have hres : install s v u = (s, .err .alreadyInstalled) := by
    simp only [install, hf]
    rw [hrel]
    rw [if_pos (show version_already_installed s (get_real_version v) = true by
      simpa [version_already_installed] using hin)]
  refine ⟨hres, ?_⟩
  rw [hres]
  exact count_one_of_nodup_mem hnd hin

/-- C6 (witness): the amended theorem applied to `sampleStore`, whose cache
holds exactly one `go1.24.0` entry and which has `go1.24.0` installed. -/
theorem C6_witness :
    install sampleStore (s2l "go1.24.0") false =
      (sampleStore, .err .alreadyInstalled) ∧
    (install sampleStore (s2l "go1.24.0") false).1.installed.count
      (s2l "go1.24.0") = 1 := by
  have h := C6_reinstall_rejected sampleStore (s2l "go1.24.0") false
    (by decide) (by decide) (by decide)
  have heq : get_real_version (s2l "go1.24.0") = s2l "go1.24.0" := by decide
  rw [heq] at h
  exact h

/-- C7: creating an alias named `default` fails with the reserved-name
error; the names `list` and `ls` are intercepted as the listing sub-command
before being treated as alias names, completing without any filesystem
write; removing the alias named `default` fails with the reserved-name
error; in all cases the store is returned unchanged, so no alias symlink is
created or removed. -/
theorem C7_reserved_alias_names (s : GvmState) (t : Option Str) :
    aliasCmd s defaultName t = (s, .err .reservedName) ∧
    aliasCmd s (s2l "list") t = (s, .ok) ∧
    aliasCmd s (s2l "ls") t = (s, .ok) ∧
    remove_alias s defaultName = (s, .err .reservedName) := by
  refine ⟨?_, ?_, ?_, ?_⟩
  · rw [aliasCmd, if_pos rfl]
  · rw [aliasCmd, if_neg (by decide), if_pos (Or.inl rfl)]
  · rw [aliasCmd, if_neg (by decide), if_pos (Or.inr rfl)]
  · rw [remove_alias, if_pos rfl]

/-- C8 (counterexample): the claim fails as stated.  A marker whose
content is `gonope` — which starts with `go` but has no numeric base, hence
does not parse as a valid version — still makes `get_active_version`
return that content rather than the None the claim demands. -/
theorem C8_counterexample :
    get_active_version oddMarkerStore = some (s2l "gonope") ∧
    (parse_version_parts (s2l "gonope")).1 = [] ∧
    (parse_version_parts (s2l "gonope")).2 = [] := by decide

/-- C8 (amended): `get_active_version` returns the marker content exactly
when the marker file exists and its content starts with the `go` tag —
full parse validity is never checked; anything else yields None, never an
error. -/
theorem C8_active_marker_characterization (s : GvmState) (v : Str) :
    get_active_version s = some v ↔
      s.activeMarker = some v ∧ goTag <+: v := by
  rcases hm : s.activeMarker with _ | c
  · rw [get_active_version, hm]
    simp
  · rw [get_active_version, hm]
    simp only [Option.bind]
    by_cases h : startsGo c
    · rw [if_pos h]
      constructor
      · intro h'
        injection h' with h'
        subst h'
        exact ⟨rfl, List.isPrefixOf_iff_prefix.mp h⟩
      · rintro ⟨h1, _⟩
        injection h1 with h1
        rw [h1]
    · rw [if_neg h]
      constructor
      · intro h'
        cases h'
      · rintro ⟨h1, hpre⟩
        injection h1 with h1
        subst h1
        exact absurd ( List.isPrefixOf_iff_prefix.mpr hpre) h

/-- C9: on the success path of activation the marker at `version/active` is
updated by a single direct in-place file write of the canonical version
string, and the emitted operation sequence contains no rename at all — the
write is write-in-place, not write-then-rename. -/
theorem C9_marker_write_in_place (base : Str) (s : GvmState) (v : Str)
    (hin : get_real_version v ∈ s.installed) :
    FsOp.writeFile (pathJoin (pathJoin base (s2l "version")) (s2l "active"))
        (get_real_version v) ∈ activateTrace base s v ∧
    ∀ op ∈ activateTrace base s v, isRename op = false := by
  constructor
  · simp only [activateTrace]
    rw [if_neg (by simp [hin])]
    exact List.mem_cons_self _ _
  · intro op hop
    simp only [activateTrace] at hop
    rw [if_neg (by simp [hin])] at hop
    by_cases hd : (s.aliases.map Prod.fst).contains defaultName = true
    · rw [if_pos hd] at hop
      simp only [List.mem_cons, List.mem_append, List.mem_singleton,
        List.not_mem_nil, or_false] at hop
      rcases hop with rfl | rfl | rfl | rfl | rfl | rfl | rfl <;> rfl
    · rw [if_neg hd] at hop
      simp only [List.nil_append, List.mem_cons, List.not_mem_nil,
        or_false] at hop
      rcases hop with rfl | rfl | rfl | rfl | rfl | rfl <;> rfl

/-- C9 (witness): the theorem applied to `sampleStore` under a concrete
base directory, activating the installed `1.24.0`. -/
theorem C9_witness :
    FsOp.writeFile
        (pathJoin (pathJoin (s2l "/home/u/.gvm") (s2l "version"))
          (s2l "active")) (get_real_version (s2l "1.24.0")) ∈
      activateTrace (s2l "/home/u/.gvm") sampleStore (s2l "1.24.0") ∧
    ∀ op ∈ activateTrace (s2l "/home/u/.gvm") sampleStore (s2l "1.24.0"),
      isRename op = false :=
  C9_marker_write_in_place (s2l "/home/u/.gvm") sampleStore (s2l "1.24.0")
    (by decide)

/-- C10: stability classification is invariant under normalization — for
every string, classifying after prepending the `go` tag (when absent)
agrees with classifying the raw string. -/
theorem C10_stability_normalization_invariant (s : Str) :
    is_stable_version (get_real_version s) = is_stable_version s := by
  by_cases h : startsGo s
  · rw [get_real_version, if_pos h]
  · rw [is_stable_version, is_stable_version]
    have h1 : stripGo (get_real_version s) = s := by
      have hp : startsGo (goTag ++ s) = true :=
        List.isPrefixOf_iff_prefix.mpr ⟨s, rfl⟩
      rw [get_real_version, if_neg h, stripGo, if_pos hp]
      rfl
    have h2 : stripGo s = s := by rw [stripGo, if_neg h]
    rw [h1, h2]
